import Mathlib

/-!
Shallow embedding of the Galton-board simulation core, translated from the
two source variants of the repository:

* variant A (kinematic tween): the unnamed source file (`class Ball`,
  `planNextTarget`, `update`, the `tick` callback, `pegRows`, `binCenters`);
* variant B (gravity-integrated): `src/GaltonBoard.jsx` (`class QBall`,
  the `step` callback).

JS numbers are modelled as rationals (ℚ); the 32-bit integer arithmetic of
the mulberry32 generator is modelled on `Nat` with explicit `% 2^32`.
-/

namespace Galton

/-- JS helper from both sources: `clamp = (v, lo, hi) => Math.max(lo, Math.min(hi, v))`. -/
def clamp (v lo hi : ℚ) : ℚ := max lo (min hi v)

/-- Integer version of the same clamp, for bin indices. -/
def clampZ (v lo hi : ℤ) : ℤ := max lo (min hi v)

/-- JS `Math.round`: round half toward positive infinity. -/
def jsRound (x : ℚ) : ℤ := Int.floor (x + 1/2)

/-- Quadratic ease-in-out from both sources:
`easeInOut = (t) => (t < 0.5 ? 2*t*t : -1 + (4 - 2*t)*t)`. -/
def easeInOut (t : ℚ) : ℚ := if t < 1/2 then 2*t*t else -1 + (4 - 2*t)*t

/-- Right-deflection probability, from both sources:
`pRight = clamp(0.5 + bias, 0, 1)`. -/
def pRight (bias : ℚ) : ℚ := clamp (1/2 + bias) 0 1

/-- Modulus of JS 32-bit integer conversion. -/
def U32 : Nat := 4294967296

/-- One call of the mulberry32 generator closure (both sources, identical):
state `a` is the unsigned-32-bit value of the JS variable `a`; the JS bitwise
operations `|0`, `>>>`, `^`, `|` and `Math.imul` act on 32-bit values, modelled
here as `Nat` arithmetic `% 2^32`, with `>>> k` as division by `2^k`.
Returns (output numerator, next state); the JS float output is
numerator / 4294967296. -/
def mulberry32Next (a : Nat) : Nat × Nat :=
  let a1 := (a + 0x6d2b79f5) % U32
  let t1 := ((a1 ^^^ (a1 >>> 15)) * (1 ||| a1)) % U32
  let t2 := ((((t1 ^^^ (t1 >>> 7)) * (61 ||| t1)) % U32 + t1) % U32) ^^^ t1
  (t2 ^^^ (t2 >>> 14), a1)

/-- Seed initialisation `let a = seed || Math.floor(Math.random() * 2**31)`:
when `seed` is 0 (JS falsy) the generator state is taken from ambient
randomness, modelled by the extra `entropy` input. -/
def mulberry32Init (seed entropy : Nat) : Nat :=
  if seed = 0 then entropy else seed

/-- Numeric value in [0,1) of a raw generator output. -/
def rngVal (o : Nat) : ℚ := (o : ℚ) / 4294967296

/-- First `n` raw outputs of the generator started in state `a`. -/
def mulberry32Outs (a : Nat) : Nat → List Nat
  | 0 => []
  | n+1 => (mulberry32Next a).1 :: mulberry32Outs (mulberry32Next a).2 n

/-- Deflection decisions (`true` = right) made from a seed: each decision is
`rng() < pRight` as in both sources. `entropy` is the ambient randomness used
only when `seed = 0`. -/
def decisionSeq (seed entropy : Nat) (bias : ℚ) (n : Nat) : List Bool :=
  (mulberry32Outs (mulberry32Init seed entropy) n).map
    (fun o => decide (rngVal o < pRight bias))

/-! ### Variant A: kinematic tween (unnamed source file) -/

/-- Ball of the kinematic-tween variant (`class Ball`). The shared rng is
threaded externally, so deflection draws appear as explicit arguments. -/
structure Ball where
  x : ℚ
  y : ℚ
  col : ℤ
  row : Nat
  rows : Nat
  spacing : ℚ
  stepMs : ℚ
  bias : ℚ
  done : Bool
  t0 : ℚ
  tx : ℚ
  ty : ℚ
deriving DecidableEq, Repr

/-- Constructor of `class Ball`: `stepMs = Math.max(40, stepMs)`, `row = 0`,
`done = false`, `t0 = performance.now()` (passed as `now`), `tx = x0`,
`ty = y0 + spacing`. -/
def Ball.mkNew (x0 y0 : ℚ) (col0 : ℤ) (rows : Nat) (spacing stepMs bias now : ℚ) : Ball :=
  { x := x0, y := y0, col := col0, row := 0, rows := rows, spacing := spacing,
    stepMs := max 40 stepMs, bias := bias, done := false,
    t0 := now, tx := x0, ty := y0 + spacing }

/-- The method `Ball.planNextTarget(boardCenterX)` with the value drawn from
`this.rng()` passed explicitly as `r`. -/
def Ball.planNextTarget (b : Ball) (r : ℚ) (boardCenterX now : ℚ) : Ball :=
  if b.rows ≤ b.row then { b with done := true }
  else
    let p := pRight b.bias
    let goRight : ℤ := if r < p then 1 else -1
    let tx1 := b.tx + (goRight : ℚ) * (b.spacing / 2)
    let maxOffset := (b.rows : ℚ) * b.spacing / 2
    { b with col := b.col + goRight, row := b.row + 1, t0 := now,
             ty := b.ty + b.spacing,
             tx := clamp tx1 (boardCenterX - maxOffset) (boardCenterX + maxOffset) }

/-- The method `Ball.update(now)`: eased move toward the target, then
`if (u >= 1 && this.row >= this.rows) this.done = true`. -/
def Ball.update (b : Ball) (now : ℚ) : Ball :=
  if b.done then b
  else
    let u := clamp ((now - b.t0) / b.stepMs) 0 1
    let e := easeInOut u
    { b with x := b.x + (b.tx - b.x) * e,
             y := b.y + (b.ty - b.y) * e,
             done := decide (1 ≤ u) && decide (b.rows ≤ b.row) }

/-- The call `b.planNextTarget(width / 2)` with the rng draw taken from the
shared mulberry32 state; the source consumes a random number only when
`row < rows` (the draw happens after the early-out in `planNextTarget`). -/
def Ball.planDraw (b : Ball) (a : Nat) (boardCenterX now : ℚ) : Ball × Nat :=
  if b.rows ≤ b.row then (b.planNextTarget 0 boardCenterX now, a)
  else (b.planNextTarget (rngVal (mulberry32Next a).1) boardCenterX now,
        (mulberry32Next a).2)

/-- Advance of one ball inside the `tick` callback of variant A:
`if (!b.done && (now - b.t0) / b.stepMs >= 1) b.planNextTarget(width / 2); b.update(now);`. -/
def stepBallA (boardCenterX now : ℚ) (a : Nat) (b : Ball) : Ball × Nat :=
  let pb := if b.done = false ∧ 1 ≤ (now - b.t0) / b.stepMs
            then b.planDraw a boardCenterX now else (b, a)
  (pb.1.update now, pb.2)

/-- The `forEach` advance loop of variant A's `tick`, threading the shared rng. -/
def advanceAllA (boardCenterX now : ℚ) : List Ball → Nat → List Ball × Nat
  | [], a => ([], a)
  | b :: bs, a =>
    let p := stepBallA boardCenterX now a b
    let q := advanceAllA boardCenterX now bs p.2
    (p.1 :: q.1, q.2)

/-- Bin index computed in variant A's `tick` for a done ball:
`clamp(Math.round((b.col + rows) / 2), 0, rows)`. -/
def tallyIdxA (rows : Nat) (col : ℤ) : ℤ :=
  clampZ (jsRound (((col : ℚ) + (rows : ℚ)) / 2)) 0 (rows : ℤ)

/-- The collect loop of variant A's `tick`: done balls increment the tally at
their bin index and are dropped, the others are kept in order. -/
def collectA (rows : Nat) : List Ball → List Nat → List Ball × List Nat
  | [], t => ([], t)
  | b :: bs, t =>
    if b.done then
      let idx := (tallyIdxA rows b.col).toNat
      collectA rows bs (t.set idx (t.getD idx 0 + 1))
    else
      let q := collectA rows bs t
      (b :: q.1, q.2)

/-- Component state of variant A that the simulation logic touches. -/
structure SysA where
  rows : Nat
  bias : ℚ
  stepMs : ℚ
  spacing : ℚ
  boardCenterX : ℚ
  boardTop : ℚ
  balls : List Ball
  tallies : List Nat
  rng : Nat
deriving Repr

/-- Variant A `launchBall`: push a fresh ball dropped at
`(boardCenterX, boardTop - spacing * 0.6)` with `col0 = 0`. -/
def SysA.launchBall (s : SysA) (now : ℚ) : SysA :=
  { s with balls := s.balls ++
      [Ball.mkNew s.boardCenterX (s.boardTop - s.spacing * (3/5)) 0 s.rows
        s.spacing s.stepMs s.bias now] }

/-- Variant A `tick(now)`: advance every ball, then tally and drop done balls. -/
def SysA.tick (s : SysA) (now : ℚ) : SysA :=
  let adv := advanceAllA s.boardCenterX now s.balls s.rng
  let col := collectA s.rows adv.1 s.tallies
  { s with balls := col.1, tallies := col.2, rng := adv.2 }

/-- Variant A `reset`: clear the live balls and zero the tallies. -/
def SysA.reset (s : SysA) : SysA :=
  { s with balls := [], tallies := List.replicate (s.rows + 1) 0 }

/-- Row-count change in variant A: the `[binCount]` effect re-creates the tally
array (`setBinTallies(Array(binCount).fill(0))`), but no effect in this variant
clears `ballsRef`, so the live balls are kept unchanged. -/
def SysA.setRows (s : SysA) (n : Nat) : SysA :=
  { s with rows := n, tallies := List.replicate (n + 1) 0 }

/-- External events driving variant A: a drop appends one ball, a tick runs the
animation callback at timestamp `now`. -/
inductive EvA where
  | drop (now : ℚ)
  | tick (now : ℚ)
deriving Repr

/-- Run of variant A under a sequence of drop/tick events. -/
def SysA.run (s : SysA) : List EvA → SysA
  | [] => s
  | EvA.drop t :: es => (s.launchBall t).run es
  | EvA.tick t :: es => (s.tick t).run es

/-- Number of drop events in an event sequence. -/
def dropCountA (evs : List EvA) : Nat :=
  evs.countP (fun e => match e with | EvA.drop _ => true | _ => false)

/-! ### Lattice geometry (unnamed source file) -/

/-- Peg x-coordinate: `startX + i*spacing` with
`startX = boardCenterX - ((count-1)*spacing)/2`, `count = r+1`. -/
def pegX (boardCenterX spacing : ℚ) (r i : Nat) : ℚ :=
  boardCenterX - (r : ℚ) * spacing / 2 + (i : ℚ) * spacing

/-- The `pegRows` geometry: row `r` (for `r < rows`) holds `r+1` peg
x-coordinates. -/
def pegRowXs (boardCenterX spacing : ℚ) (rows : Nat) : List (List ℚ) :=
  (List.range rows).map (fun r => (List.range (r+1)).map (pegX boardCenterX spacing r))

/-- One bin center: `startX + i*spacing` with
`startX = boardCenterX - (rows*spacing)/2`. -/
def binCenter (boardCenterX spacing : ℚ) (rows i : Nat) : ℚ :=
  boardCenterX - (rows : ℚ) * spacing / 2 + (i : ℚ) * spacing

/-- The `binCenters` geometry: `binCount = rows + 1` centers. -/
def binCenters (boardCenterX spacing : ℚ) (rows : Nat) : List ℚ :=
  (List.range (rows + 1)).map (binCenter boardCenterX spacing rows)

/-! ### Variant B: gravity-integrated bounce (src/GaltonBoard.jsx) -/

/-- Geometry constants of variant B as read by the `step` callback closure. -/
structure GeomB where
  rows : Nat
  boardCenterX : ℚ
  boardTop : ℚ
  boardBottom : ℚ
  spacing : ℚ
  ballRadius : ℚ
deriving Repr

/-- The concrete geometry of `src/GaltonBoard.jsx`: width 520, height 700,
`spacing = 28`, `boardTop = 40 + 20 = 60`, `boardBottom = 700 - 160 = 540`,
`ballRadius = 3.2`. -/
def geomB (rows : Nat) : GeomB :=
  { rows := rows, boardCenterX := 260, boardTop := 60, boardBottom := 540,
    spacing := 28, ballRadius := 16/5 }

/-- The `rowYs` array: `pegRows.map(r => r[0].y)`, i.e. `boardTop + r*spacing`. -/
def rowYsOf (g : GeomB) : List ℚ :=
  (List.range g.rows).map (fun r => g.boardTop + (r : ℚ) * g.spacing)

/-- Ball of the gravity variant (`class QBall`); the shared rng is threaded
externally. The `pRight` field is the value captured at construction. -/
structure QBall where
  x : ℚ
  y : ℚ
  vx : ℚ
  vy : ℚ
  r : ℚ
  rows : Nat
  spacing : ℚ
  pRight : ℚ
  rowYs : List ℚ
  row : Nat
  rights : Nat
  done : Bool
  txActive : Bool
  txStart : ℚ
  txTarget : ℚ
  txT0 : ℚ
  txDur : ℚ
deriving DecidableEq, Repr

/-- `launchBall` of variant B: a fresh `QBall` at
`(boardCenterX, boardTop - spacing * 0.8)` with `pRight = clamp(0.5+bias,0,1)`. -/
def QBall.mkNew (g : GeomB) (bias : ℚ) : QBall :=
  { x := g.boardCenterX, y := g.boardTop - g.spacing * (4/5), vx := 0, vy := 0,
    r := g.ballRadius, rows := g.rows, spacing := g.spacing,
    pRight := Galton.pRight bias, rowYs := rowYsOf g, row := 0, rights := 0,
    done := false, txActive := false, txStart := 0, txTarget := 0,
    txT0 := 0, txDur := 7/50 }

/-- Physics part of variant B's `step` body for one ball: gravity
`vy += 1200*dt`, damping `vx *= 0.998`, `vy *= 0.999`, horizontal tween when
`txActive` (else `x += vx*dt`), then `y += vy*dt`. -/
def qphys (b : QBall) (now dt : ℚ) : QBall :=
  let vy1 := b.vy + 1200 * dt
  let vx1 := b.vx * (1 - 1/500)
  let vy2 := vy1 * (1 - 1/1000)
  let tw : ℚ × Bool :=
    if b.txActive then
      let u := clamp ((now - b.txT0) / 1000 / b.txDur) 0 1
      (b.txStart + (b.txTarget - b.txStart) * easeInOut u, !(decide (1 ≤ u)))
    else (b.x + vx1 * dt, false)
  { b with x := tw.1, txActive := tw.2, vx := vx1, vy := vy2, y := b.y + vy2 * dt }

/-- Row-crossing part of variant B's `step`:
`if (b.row < b.rows && b.y >= b.rowYs[b.row])` then draw the deflection,
bounce (`vy = -120`), set up the horizontal tween toward
`clamp(b.x ± spacing/2, leftBound + r, rightBound - r)` and advance the row.
The closure bounds use the component state `rows` from `g`. -/
def qcross (g : GeomB) (b : QBall) (now : ℚ) (a : Nat) : QBall × Nat :=
  if b.row < b.rows ∧ b.rowYs.getD b.row 0 ≤ b.y then
    let o := mulberry32Next a
    let goRight : ℤ := if rngVal o.1 < b.pRight then 1 else -1
    let leftBound := g.boardCenterX - (g.rows : ℚ) * g.spacing / 2
    let rightBound := g.boardCenterX + (g.rows : ℚ) * g.spacing / 2
    let targetX := clamp (b.x + (goRight : ℚ) * (b.spacing / 2))
                     (leftBound + b.r) (rightBound - b.r)
    ({ b with rights := if 0 < goRight then b.rights + 1 else b.rights,
              vy := -120, txStart := b.x, txTarget := targetX, txT0 := now,
              txDur := 7/50, txActive := true, vx := 0, row := b.row + 1 }, o.2)
  else (b, a)

/-- Side-wall reflection of variant B's `step` (restitution 0.6), two
sequential checks as in the source. -/
def qwalls (g : GeomB) (b : QBall) : QBall :=
  let leftWall := g.boardCenterX - (g.rows : ℚ) * g.spacing / 2 - g.spacing / 2 + b.r
  let rightWall := g.boardCenterX + (g.rows : ℚ) * g.spacing / 2 + g.spacing / 2 - b.r
  let b1 := if b.x < leftWall then { b with x := leftWall, vx := |b.vx| * (3/5) } else b
  if rightWall < b1.x then { b1 with x := rightWall, vx := -|b1.vx| * (3/5) } else b1

/-- Completion check of variant B's `step`: `if (b.y - b.r >= boardBottom)`
tally `clamp(b.rights, 0, rows)` (with the closure `rows`) and mark done. -/
def qdone (g : GeomB) (b : QBall) : QBall × Option Nat :=
  if g.boardBottom ≤ b.y - b.r then
    ({ b with done := true }, some (min b.rights g.rows))
  else (b, none)

/-- Full per-ball body of variant B's `step` callback: done balls are skipped,
otherwise physics, row crossing, walls and completion run in source order.
Returns the updated ball, the rng state and an emitted bin index if the ball
completed this tick. -/
def qstep (g : GeomB) (now dt : ℚ) (a : Nat) (b : QBall) : QBall × Nat × Option Nat :=
  if b.done then (b, a, none)
  else
    let b1 := qphys b now dt
    let p := qcross g b1 now a
    let b4 := qwalls g p.1
    let q := qdone g b4
    (q.1, p.2, q.2)

/-- Runs variant B's per-ball step over a list of tick timestamps for a single
ball, threading `last` (for `dt = min(0.033, (now - last)/1000)`) and the rng
state; collects the emitted bin indices. -/
def runQBallEv (g : GeomB) : QBall → Nat → ℚ → List ℚ → QBall × List Nat
  | b, _, _, [] => (b, [])
  | b, a, last, now :: ns =>
    let dt := min (33/1000) ((now - last) / 1000)
    let p := qstep g now dt a b
    let q := runQBallEv g p.1 p.2.1 now ns
    (q.1, p.2.2.toList ++ q.2)

/-- The `forEach` loop of variant B's `step` over the live balls, threading the
shared rng and collecting emitted bin indices in order. -/
def advanceAllB (g : GeomB) (now dt : ℚ) : List QBall → Nat → List QBall × Nat × List Nat
  | [], a => ([], a, [])
  | b :: bs, a =>
    let p := qstep g now dt a b
    let q := advanceAllB g now dt bs p.2.1
    (p.1 :: q.1, q.2.1, p.2.2.toList ++ q.2.2)

/-- Sequential tally increments `next[idx] += 1` for a list of emitted indices. -/
def bumpTallies : List Nat → List Nat → List Nat
  | t, [] => t
  | t, i :: is => bumpTallies (t.set i (t.getD i 0 + 1)) is

/-- Component state of variant B that the simulation logic touches. -/
structure SysB where
  g : GeomB
  bias : ℚ
  balls : List QBall
  tallies : List Nat
  rng : Nat
  last : ℚ
deriving Repr

/-- Variant B `launchBall`. -/
def SysB.launchBall (s : SysB) : SysB :=
  { s with balls := s.balls ++ [QBall.mkNew s.g s.bias] }

/-- Variant B `step(now)`: `dt = min(0.033, (now - last)/1000)`, advance every
ball (tallying completions in loop order), then
`ballsRef.current = ballsRef.current.filter(b => !b.done)`. -/
def SysB.tick (s : SysB) (now : ℚ) : SysB :=
  let dt := min (33/1000) ((now - s.last) / 1000)
  let adv := advanceAllB s.g now dt s.balls s.rng
  { s with balls := adv.1.filter (fun b => !b.done),
           tallies := bumpTallies s.tallies adv.2.2,
           rng := adv.2.1, last := now }

/-- Variant B `reset`. -/
def SysB.reset (s : SysB) : SysB :=
  { s with balls := [], tallies := List.replicate (s.g.rows + 1) 0 }

/-- Row-count change in variant B: the `[rows]` effect runs
`ballsRef.current = []; setBinTallies(Array(rows + 1).fill(0))`. -/
def SysB.setRows (s : SysB) (n : Nat) : SysB :=
  { s with g := { s.g with rows := n }, balls := [],
           tallies := List.replicate (n + 1) 0 }

/-- External events driving variant B. -/
inductive EvB where
  | drop
  | tick (now : ℚ)
deriving Repr

/-- Run of variant B under a sequence of drop/tick events. -/
def SysB.run (s : SysB) : List EvB → SysB
  | [] => s
  | EvB.drop :: es => s.launchBall.run es
  | EvB.tick t :: es => (s.tick t).run es

/-- Number of drop events in a variant B event sequence. -/
def dropCountB (evs : List EvB) : Nat :=
  evs.countP (fun e => match e with | EvB.drop => true | _ => false)

/-- Initial component state of variant B for a given seed: empty live set,
zero tallies, generator seeded by `mulberry32(seed)` (with `entropy` the
ambient fallback used when the seed is 0). -/
def mkSysB (rows : Nat) (bias : ℚ) (seed entropy : Nat) (last0 : ℚ) : SysB :=
  { g := geomB rows, bias := bias, balls := [],
    tallies := List.replicate (rows + 1) 0,
    rng := mulberry32Init seed entropy, last := last0 }

/-! ### Auxiliary definitions used to state the claims -/

/-- Iterated `Ball.update` over a list of tick timestamps (variant A). -/
def Ball.updates (b : Ball) (ts : List ℚ) : Ball := ts.foldl Ball.update b

/-- Iterated `Ball.planNextTarget` with a forced constant rng value `r`
(the §8 scenarios force `rng()` to return always 0 or always 1). -/
def planConstA (boardCenterX now r : ℚ) : Ball → Nat → Ball
  | b, 0 => b
  | b, n+1 => planConstA boardCenterX now r (b.planNextTarget r boardCenterX now) n

/-- Signed column after a deflection sequence (`true` = right): `col0 = 0`,
`col += goRight` with `goRight = ±1`, as in `planNextTarget`. -/
def colOf (ds : List Bool) : ℤ :=
  ds.foldl (fun c d => c + (if d then 1 else -1)) 0

/-- Number of rightward deflections in a deflection sequence. -/
def rightsOf (ds : List Bool) : Nat := ds.count true

/-- Variant B bin index for a completed ball: `clamp(b.rights, 0, rows)`,
which on naturals is `min rights rows`. -/
def binIndexB (rows rights : Nat) : Nat := min rights rows

/-- Tick timestamps 33, 66, …: one frame every 33 ms, so that
`dt = min(0.033, (now - last)/1000) = 0.033` exactly at every frame. -/
def c2ticks : List ℚ := (List.range 174).map (fun k => ((k : ℚ) + 1) * 33)

/-- Single-ball run of variant B with `rows = 20`, `bias = 0`, seed 12345,
ball dropped at time 0, frames every 33 ms. -/
def c2run : QBall × List Nat :=
  runQBallEv (geomB 20) (QBall.mkNew (geomB 20) 0) 12345 0 c2ticks

/-- An in-flight ball of variant A under the `rows = 12` configuration. -/
def c3ball : Ball := Ball.mkNew 260 (60 - 28 * (3/5)) 0 12 28 140 0 0

/-- Variant A component state holding one live ball under `rows = 12`. -/
def c3sys : SysA :=
  { rows := 12, bias := 0, stepMs := 140, spacing := 28, boardCenterX := 260,
    boardTop := 60, balls := [c3ball], tallies := List.replicate 13 0, rng := 12345 }

/-- A freshly launched variant A ball (`rows = 12`, default geometry,
`stepMs = 140`, dropped at time 0): `y0 = 43.2`, `ty = 71.2`. -/
def c6ball : Ball := Ball.mkNew 260 (60 - 28 * (3/5)) 0 12 28 140 0 0

/-- A freshly launched variant A ball under the §8 scenario configuration
`rowCount = 5` (default geometry, `stepMs = 140`, dropped at time 0). -/
def c8ball (bias : ℚ) : Ball := Ball.mkNew 260 (60 - 28 * (3/5)) 0 5 28 140 bias 0

/-- Variant A component state right after a reset with `rows = 5`. -/
def c5sysA : SysA :=
  { rows := 5, bias := 0, stepMs := 140, spacing := 28, boardCenterX := 260,
    boardTop := 60, balls := [], tallies := List.replicate 6 0, rng := 12345 }

/-! ### Theorems -/

/-- Helper: the generator decision stream ignores ambient entropy whenever the
seed is nonzero, because `seed || …` then evaluates to `seed`. -/
theorem mulberry32Init_of_ne (seed e1 e2 : Nat) (h : seed ≠ 0) :
    mulberry32Init seed e1 = mulberry32Init seed e2 := by
  simp [mulberry32Init, h]

unseal Rat.add Rat.mul Rat.sub Rat.inv in
/-- C1 (counterexample): the seed value 0 is accepted at the interface
(`parseInt(e.target.value || 0)` produces it), but `mulberry32(0)` falls back
to `Math.floor(Math.random() * 2**31)`: two runs whose ambient randomness
yields 0 and 1 produce different first deflection decisions for the same
seed, bias 0, and identical drop/tick schedule. -/
theorem C1_counterexample : decisionSeq 0 0 0 1 ≠ decisionSeq 0 1 0 1 := by decide

/-- C1 (amended): for every nonzero seed, the deflection-decision sequence and
the whole variant B run (hence its emitted bin-index sequence) are independent
of the ambient entropy, i.e. identical across any two runs with identical
seed, bias, drop sequence and tick timestamps. -/
theorem C1_determinism (seed e1 e2 : Nat) (h : seed ≠ 0) (bias : ℚ) (n : Nat)
    (rows : Nat) (last0 : ℚ) (evs : List EvB) :
    decisionSeq seed e1 bias n = decisionSeq seed e2 bias n ∧
    (mkSysB rows bias seed e1 last0).run evs = (mkSysB rows bias seed e2 last0).run evs := by
  have hi := mulberry32Init_of_ne seed e1 e2 h
  refine ⟨?_, ?_⟩
  · unfold decisionSeq
    rw [hi]
  · unfold mkSysB
    rw [hi]

/-- C1 (witness): the amended determinism theorem applied at seed 12345. -/
theorem C1_determinism_witness :
    (12345 : Nat) ≠ 0 ∧
    (decisionSeq 12345 0 0 3 = decisionSeq 12345 999 0 3 ∧
     (mkSysB 12 0 12345 0 0).run [EvB.drop] = (mkSysB 12 0 12345 999 0).run [EvB.drop]) :=
  ⟨by decide, C1_determinism 12345 0 999 (by decide) 0 3 12 0 [EvB.drop]⟩

/-- C3 (code evaluation): in variant A a row-count change zeroes the tallies
but keeps every in-flight ball alive (`ballsRef` is never cleared by the
`[binCount]` effect), contradicting the claim; the `reset` button does clear
both. -/
theorem C3_rowchange_keeps_balls :
    (c3sys.setRows 13).balls = [c3ball] ∧
    (c3sys.setRows 13).balls ≠ [] ∧
    (c3sys.setRows 13).tallies = List.replicate 14 0 ∧
    c3sys.reset.balls = [] ∧
    c3sys.reset.tallies = List.replicate 13 0 := by
  refine ⟨rfl, by simp [SysA.setRows, c3sys], rfl, rfl, rfl⟩

/-- Helper: the signed column of variant A equals twice the number of right
deflections minus the number of decisions. -/
theorem colOf_eq (ds : List Bool) : colOf ds = 2 * (rightsOf ds : ℤ) - ds.length := by
  unfold colOf rightsOf
  suffices h : ∀ c : ℤ, ds.foldl (fun c d => c + (if d then 1 else -1)) c
      = c + 2 * (ds.count true : ℤ) - ds.length by
    have := h 0
    omega
  induction ds with
  | nil => intro c; simp
  | cons d tl ih =>
    intro c
    cases d
    · simp only [List.foldl_cons, if_neg Bool.false_ne_true, List.count_cons,
        List.length_cons, ih]
      simp
      omega
    · simp only [List.foldl_cons, if_pos rfl, List.count_cons, List.length_cons, ih]
      simp
      omega

set_option maxRecDepth 10000 in
unseal Rat.add Rat.mul Rat.sub Rat.inv in
/-- C2 (code evaluation): with `rowCount = 20` (accepted by the rows slider),
seed 12345, bias 0, a single ball dropped at time 0 and a frame every 33 ms,
variant B marks the ball done and reports bin `rights = 8` although only 18
of the 20 peg rows were crossed: the completion test
`b.y - b.r >= boardBottom` never consults `row`, and the pegs of rows 18 and
19 (y = 564 and 592) lie below `boardBottom = 540`. -/
theorem C2_completion_before_last_rows :
    c2run.1.done = true ∧ c2run.1.row = 18 ∧ c2run.1.row < (geomB 20).rows ∧
    c2run.2 = [8] ∧ c2run.1.rights = 8 := by decide

unseal Rat.add Rat.mul Rat.sub Rat.inv in
/-- C6 (counterexample): in variant A, two `update` calls at progress 0.25 and
0.5 leave the freshly launched ball at y = 58.95, while the claimed
interpolation `pre + (target - pre) * ease(u)` at progress `u = 0.5` gives
y = 57.2: the position at a given progress is not a function of the
pre-transition point, the target and `u` alone. -/
theorem C6_counterexample :
    (c6ball.updates [35, 70]).y ≠
      c6ball.y + (c6ball.ty - c6ball.y) *
        easeInOut (clamp ((70 - c6ball.t0) / c6ball.stepMs) 0 1) := by decide

unseal Rat.add Rat.mul Rat.sub Rat.inv in
/-- C7 (counterexample): with `rowCount = 5`, `spacing = 28`,
`centerX = 260`, the `binCenters` span `5 * 28 = 140` but the bottom peg row
(row 4, five pegs) spans only `4 * 28 = 112`: the claimed equality of the two
widths fails. -/
theorem C7_counterexample :
    (binCenters 260 28 5).getD 5 0 - (binCenters 260 28 5).getD 0 0 ≠
      ((pegRowXs 260 28 5).getD 4 []).getD 4 0 -
      ((pegRowXs 260 28 5).getD 4 []).getD 0 0 := by decide

/-- C7 (amended): for every `rowCount ≥ 1` and `spacing > 0`, `binCenters`
holds `rowCount + 1` x-coordinates, adjacent centers exactly `spacing` apart,
centered at `centerX` and spanning total width `rowCount * spacing` — which is
one `spacing` more than the bottom peg row's span `(rowCount - 1) * spacing`,
not equal to it. -/
theorem C7_binCenters (cX sp : ℚ) (n : Nat) (h1 : 1 ≤ n) (_h2 : 0 < sp) :
    (binCenters cX sp n).length = n + 1 ∧
    (∀ i, i ≤ n → (binCenters cX sp n).getD i 0 = binCenter cX sp n i) ∧
    (∀ i, i < n → binCenter cX sp n (i+1) - binCenter cX sp n i = sp) ∧
    binCenter cX sp n 0 + binCenter cX sp n n = 2 * cX ∧
    binCenter cX sp n n - binCenter cX sp n 0 = (n : ℚ) * sp ∧
    ((pegRowXs cX sp n).getD (n-1) []).length = n ∧
    pegX cX sp (n-1) (n-1) - pegX cX sp (n-1) 0 = ((n : ℚ) - 1) * sp := by
  refine ⟨by simp [binCenters], ?_, ?_, ?_, ?_, ?_, ?_⟩
  · intro i hi
    unfold binCenters
    rw [List.getD_eq_getElem?_getD]
    rw [List.getElem?_map]
    rw [List.getElem?_range (by omega)]
    rfl
  · intro i hi
    unfold binCenter
    push_cast
    ring
  · unfold binCenter
    push_cast
    ring
  · unfold binCenter
    push_cast
    ring
  · unfold pegRowXs
    rw [List.getD_eq_getElem?_getD]
    rw [List.getElem?_map]
    rw [List.getElem?_range (by omega)]
    simp
    omega
  · unfold pegX
    rw [Nat.cast_sub h1]
    push_cast
    ring

/-- C7 (witness): the amended geometry theorem at the counterexample's
concrete configuration. -/
theorem C7_binCenters_witness :
    (1 ≤ 5 ∧ (0:ℚ) < 28) ∧
    ((binCenters 260 28 5).length = 5 + 1 ∧
     (∀ i, i ≤ 5 → (binCenters 260 28 5).getD i 0 = binCenter 260 28 5 i) ∧
     (∀ i, i < 5 → binCenter 260 28 5 (i+1) - binCenter 260 28 5 i = 28) ∧
     binCenter 260 28 5 0 + binCenter 260 28 5 5 = 2 * 260 ∧
     binCenter 260 28 5 5 - binCenter 260 28 5 0 = (5 : ℚ) * 28 ∧
     ((pegRowXs 260 28 5).getD (5-1) []).length = 5 ∧
     pegX 260 28 (5-1) (5-1) - pegX 260 28 (5-1) 0 = ((5 : ℚ) - 1) * 28) :=
  ⟨⟨by norm_num, by norm_num⟩, C7_binCenters 260 28 5 (by norm_num) (by norm_num)⟩

/-- Helper: `Math.round` of an integer-valued rational is that integer. -/
theorem jsRound_intCast (z : ℤ) : jsRound (z : ℚ) = z := by
  unfold jsRound
  rw [Int.floor_int_add]
  norm_num

/-- Helper: the physics phase touches only position, velocity and the tween
flag. -/
theorem qphys_fields (b : QBall) (now dt : ℚ) :
    (qphys b now dt).row = b.row ∧ (qphys b now dt).rights = b.rights ∧
    (qphys b now dt).rows = b.rows ∧ (qphys b now dt).done = b.done := by
  exact ⟨rfl, rfl, rfl, rfl⟩

/-- Helper: the crossing phase never changes `rows` or `done`. -/
theorem qcross_fields (g : GeomB) (b : QBall) (now : ℚ) (a : Nat) :
    (qcross g b now a).1.rows = b.rows ∧ (qcross g b now a).1.done = b.done := by
  unfold qcross
  split <;> simp

/-- Helper: the crossing phase preserves `rights ≤ row` and keeps
`row ≤ rows` (the guard requires `row < rows` before incrementing). -/
theorem qcross_inv (g : GeomB) (b : QBall) (now : ℚ) (a : Nat)
    (h1 : b.rights ≤ b.row) (h2 : b.row ≤ b.rows) :
    (qcross g b now a).1.rights ≤ (qcross g b now a).1.row ∧
    (qcross g b now a).1.row ≤ b.rows := by
  unfold qcross
  split
  case isTrue h =>
    refine ⟨?_, by simpa using h.1⟩
    simp only
    split <;> simp <;> omega
  case isFalse h => exact ⟨h1, h2⟩

/-- Helper: the wall phase touches only `x` and `vx`. -/
theorem qwalls_fields (g : GeomB) (b : QBall) :
    (qwalls g b).row = b.row ∧ (qwalls g b).rights = b.rights ∧
    (qwalls g b).rows = b.rows ∧ (qwalls g b).done = b.done := by
  refine ⟨?_, ?_, ?_, ?_⟩ <;>
    (unfold qwalls; dsimp only; split <;> split <;> rfl)

/-- Helper: behaviour of the completion phase in both cases. -/
theorem qdone_spec (g : GeomB) (b : QBall) :
    ((qdone g b).2 = none → (qdone g b).1 = b) ∧
    (∀ e, (qdone g b).2 = some e →
      (qdone g b).1.done = true ∧ e = min b.rights g.rows ∧
      (qdone g b).1.rights = b.rights ∧ (qdone g b).1.row = b.row ∧
      (qdone g b).1.rows = b.rows) := by
  unfold qdone
  split <;> simp

/-- Helper: a done ball is skipped entirely by the step body. -/
theorem qstep_done (g : GeomB) (now dt : ℚ) (a : Nat) (b : QBall)
    (h : b.done = true) : qstep g now dt a b = (b, a, none) := by
  unfold qstep
  simp [h]

/-- Helper: behaviour of one step on a live ball: `rows` is preserved, the
`rights ≤ row ≤ rows` invariant is preserved, and an emission happens exactly
when the ball becomes done, with value `min rights rows`. -/
theorem qstep_spec (g : GeomB) (now dt : ℚ) (a : Nat) (b : QBall)
    (h : b.done = false) :
    (qstep g now dt a b).1.rows = b.rows ∧
    (b.rights ≤ b.row → b.row ≤ b.rows →
      (qstep g now dt a b).1.rights ≤ (qstep g now dt a b).1.row ∧
      (qstep g now dt a b).1.row ≤ b.rows) ∧
    ((qstep g now dt a b).2.2 = none → (qstep g now dt a b).1.done = false) ∧
    (∀ e, (qstep g now dt a b).2.2 = some e →
      (qstep g now dt a b).1.done = true ∧
      e = min (qstep g now dt a b).1.rights g.rows) := by
  unfold qstep
  rw [if_neg (by simp [h])]
  simp only
  obtain ⟨hp1, hp2, hp3, hp4⟩ := qphys_fields b now dt
  obtain ⟨hc1, hc2⟩ := qcross_fields g (qphys b now dt) now a
  obtain ⟨hw1, hw2, hw3, hw4⟩ := qwalls_fields g (qcross g (qphys b now dt) now a).1
  obtain ⟨hn, hs⟩ := qdone_spec g (qwalls g (qcross g (qphys b now dt) now a).1)
  refine ⟨?_, ?_, ?_, ?_⟩
  · rcases ho : (qdone g (qwalls g (qcross g (qphys b now dt) now a).1)).2 with _ | e
    · rw [hn ho, hw3, hc1, hp3]
    · rw [(hs e ho).2.2.2.2, hw3, hc1, hp3]
  · intro i1 i2
    have hci := qcross_inv g (qphys b now dt) now a
      (by rw [hp1, hp2]; exact i1) (by rw [hp1, hp3]; exact i2)
    rcases ho : (qdone g (qwalls g (qcross g (qphys b now dt) now a).1)).2 with _ | e
    · rw [hn ho, hw1, hw2]
      exact ⟨hci.1, by rw [hp3] at hci; exact hci.2⟩
    · obtain ⟨_, _, he3, he4, _⟩ := hs e ho
      rw [he3, he4, hw1, hw2]
      exact ⟨hci.1, by rw [hp3] at hci; exact hci.2⟩
  · intro ho
    rw [hn ho, hw4, hc2, hp4, h]
  · intro e ho
    obtain ⟨he1, he2, he3, _, _⟩ := hs e ho
    exact ⟨he1, by rw [he3]; exact he2⟩

/-- Helper: unfolding equation of the single-ball run on an empty tick list. -/
theorem runQBallEv_nil (g : GeomB) (b : QBall) (a : Nat) (last : ℚ) :
    runQBallEv g b a last [] = (b, []) := rfl

/-- Helper: unfolding equation of the single-ball run on a tick. -/
theorem runQBallEv_cons (g : GeomB) (b : QBall) (a : Nat) (last t : ℚ) (tl : List ℚ) :
    runQBallEv g b a last (t :: tl) =
      ((runQBallEv g (qstep g t (min (33/1000) ((t - last) / 1000)) a b).1
          (qstep g t (min (33/1000) ((t - last) / 1000)) a b).2.1 t tl).1,
       (qstep g t (min (33/1000) ((t - last) / 1000)) a b).2.2.toList ++
       (runQBallEv g (qstep g t (min (33/1000) ((t - last) / 1000)) a b).1
          (qstep g t (min (33/1000) ((t - last) / 1000)) a b).2.1 t tl).2) := rfl

/-- Helper: every emitted bin index of a single-ball run is at most the
closure row count, because the source clamps it with `clamp(rights, 0, rows)`. -/
theorem runQ_emit_le (g : GeomB) (ts : List ℚ) : ∀ (b : QBall) (a : Nat) (last : ℚ),
    ∀ e ∈ (runQBallEv g b a last ts).2, e ≤ g.rows := by
  induction ts with
  | nil =>
    intro b a last e he
    rw [runQBallEv_nil] at he
    simp at he
  | cons t tl ih =>
    intro b a last e he
    rw [runQBallEv_cons] at he
    simp only [List.mem_append] at he
    rcases he with he | he
    · cases hb : b.done with
      | false =>
        obtain ⟨-, -, -, hsome⟩ := qstep_spec g t (min (33/1000) ((t - last) / 1000)) a b hb
        simp only [Option.mem_toList, Option.mem_def] at he
        obtain ⟨-, hemin⟩ := hsome e he
        rw [hemin]
        exact Nat.min_le_right _ _
      | true =>
        rw [qstep_done g t (min (33/1000) ((t - last) / 1000)) a b hb] at he
        simp at he
    · exact ih _ _ _ e he

/-- Helper: invariants of a single-ball run of variant B: the
`rights ≤ row ≤ rows` invariant holds at the end, a done ball never changes
nor emits again, and every emitted bin index equals the final ball's `rights`. -/
theorem runQ_spec (g : GeomB) (ts : List ℚ) : ∀ (b : QBall) (a : Nat) (last : ℚ),
    b.rights ≤ b.row → b.row ≤ b.rows → b.rows = g.rows →
    (((runQBallEv g b a last ts).1.rights ≤ (runQBallEv g b a last ts).1.row ∧
      (runQBallEv g b a last ts).1.row ≤ g.rows ∧
      (runQBallEv g b a last ts).1.rows = g.rows) ∧
     (b.done = true → (runQBallEv g b a last ts).1 = b ∧ (runQBallEv g b a last ts).2 = []) ∧
     (∀ e ∈ (runQBallEv g b a last ts).2, e = (runQBallEv g b a last ts).1.rights)) := by
  induction ts with
  | nil =>
    intro b a last h1 h2 h3
    rw [runQBallEv_nil]
    refine ⟨⟨h1, ?_, h3⟩, fun _ => ⟨rfl, rfl⟩, ?_⟩
    · rw [← h3]; exact h2
    · intro e he; simp at he
  | cons t tl ih =>
    intro b a last h1 h2 h3
    rw [runQBallEv_cons]
    cases hb : b.done with
    | false =>
      obtain ⟨hrows, hinv, hnone, hsome⟩ :=
        qstep_spec g t (min (33/1000) ((t - last) / 1000)) a b hb
      obtain ⟨hi1, hi2⟩ := hinv h1 h2
      have hrec := ih (qstep g t (min (33/1000) ((t - last) / 1000)) a b).1
        (qstep g t (min (33/1000) ((t - last) / 1000)) a b).2.1 t
        hi1 (by rw [hrows]; exact hi2) (by rw [hrows]; exact h3)
      rcases ho : (qstep g t (min (33/1000) ((t - last) / 1000)) a b).2.2 with _ | e
      · -- no emission this tick
        refine ⟨hrec.1, ?_, ?_⟩
        · intro hcontra; simp [hb] at hcontra
        · intro e he
          simp only [ho, Option.toList_none, List.nil_append] at he
          exact hrec.2.2 e he
      · -- the ball completed this tick
        obtain ⟨hdone, hemin⟩ := hsome e ho
        obtain ⟨hfix, hemp⟩ := hrec.2.1 hdone
        refine ⟨hrec.1, ?_, ?_⟩
        · intro hcontra; simp [hb] at hcontra
        · intro e2 he2
          simp only [ho, Option.toList_some, List.singleton_append, hemp,
            List.append_nil, List.mem_cons, List.not_mem_nil, or_false] at he2
          rw [he2, hfix, hemin]
          have hle : (qstep g t (min (33/1000) ((t - last) / 1000)) a b).1.rights ≤ g.rows :=
            le_trans hi1 (le_trans hi2 (le_of_eq h3))
          omega
    | true =>
      have hq := qstep_done g t (min (33/1000) ((t - last) / 1000)) a b hb
      rw [hq]
      have hrec := ih b a t h1 h2 h3
      refine ⟨hrec.1, ?_, ?_⟩
      · intro _
        simp only [Option.toList_none, List.nil_append]
        exact ⟨(hrec.2.1 hb).1, (hrec.2.1 hb).2⟩
      · intro e he
        simp only [Option.toList_none, List.nil_append] at he ⊢
        exact hrec.2.2 e he

/-- C4: for the gravity-integrated model, after any sequence of ticks from a
fresh ball, `0 ≤ rightCount ≤ row ≤ rowCount` holds (on naturals the lower
bound is intrinsic), and every reported bin index equals the ball's final
`rights` count. -/
theorem C4_invariant (g : GeomB) (bias : ℚ) (a : Nat) (last : ℚ) (ts : List ℚ) :
    (runQBallEv g (QBall.mkNew g bias) a last ts).1.rights ≤
      (runQBallEv g (QBall.mkNew g bias) a last ts).1.row ∧
    (runQBallEv g (QBall.mkNew g bias) a last ts).1.row ≤ g.rows ∧
    ∀ e ∈ (runQBallEv g (QBall.mkNew g bias) a last ts).2,
      e = (runQBallEv g (QBall.mkNew g bias) a last ts).1.rights := by
  have h := runQ_spec g ts (QBall.mkNew g bias) a last
    (Nat.le_refl 0) (Nat.zero_le _) rfl
  exact ⟨h.1.1, h.1.2.1, h.2.2⟩

/-- Helper: variant A's tally index is clamped into `[0, rows]` for every
column value. -/
theorem tallyIdxA_bounds (rows : Nat) (col : ℤ) :
    0 ≤ tallyIdxA rows col ∧ tallyIdxA rows col ≤ rows := by
  unfold tallyIdxA clampZ
  exact ⟨le_max_left 0 _, max_le (Int.ofNat_nonneg rows) (min_le_left _ _)⟩

/-- C9: the deflection probability stored in a freshly launched ball is
exactly `clamp(0.5 + bias, 0, 1)`, the clamp always yields a probability in
`[0, 1]` and is a no-op on the restricted domain `[-0.25, 0.25]`; and every
reported bin index lies in `[0, rowCount]` in both variants (the upper bound
for variant A's formula holding for arbitrary `col`). -/
theorem C9_bin_range_and_clamp :
    (∀ bias : ℚ, 0 ≤ pRight bias ∧ pRight bias ≤ 1) ∧
    (∀ bias : ℚ, -(1/4) ≤ bias → bias ≤ 1/4 → pRight bias = 1/2 + bias) ∧
    (∀ (g : GeomB) (bias : ℚ), (QBall.mkNew g bias).pRight = clamp (1/2 + bias) 0 1) ∧
    (∀ (g : GeomB) (b : QBall) (a : Nat) (last : ℚ) (ts : List ℚ),
      ∀ e ∈ (runQBallEv g b a last ts).2, e ≤ g.rows) ∧
    (∀ (rows : Nat) (col : ℤ),
      0 ≤ tallyIdxA rows col ∧ tallyIdxA rows col ≤ rows) := by
  refine ⟨?_, ?_, ?_, ?_, ?_⟩
  · intro bias
    unfold pRight clamp
    exact ⟨le_max_left 0 _, max_le (by norm_num) (min_le_left 1 _)⟩
  · intro bias hlo hhi
    unfold pRight clamp
    rw [min_eq_right (by linarith), max_eq_right (by linarith)]
  · intro g bias
    rfl
  · intro g b a last ts
    exact runQ_emit_le g ts b a last
  · intro rows col
    exact tallyIdxA_bounds rows col

/-- C9 (witness): the clamp facts applied at `bias = 0.1`, and the bin-range
facts at a concrete run and a concrete column. -/
theorem C9_witness :
    pRight (1/10) = 1/2 + 1/10 ∧
    (0 ≤ pRight (1/10) ∧ pRight (1/10) ≤ 1) ∧
    (0 ≤ tallyIdxA 5 7 ∧ tallyIdxA 5 7 ≤ 5) :=
  ⟨C9_bin_range_and_clamp.2.1 (1/10) (by norm_num) (by norm_num),
   C9_bin_range_and_clamp.1 (1/10),
   C9_bin_range_and_clamp.2.2.2.2 5 7⟩

/-- C10: for every deflection sequence over `n = ds.length` rows, variant A's
bin formula `clamp(round((col + n)/2), 0, n)` agrees with variant B's
`clamp(rightCount, 0, n)`, and both equal the right-deflection count. -/
theorem C10_agreement (ds : List Bool) :
    tallyIdxA ds.length (colOf ds) = (binIndexB ds.length (rightsOf ds) : ℤ) ∧
    binIndexB ds.length (rightsOf ds) = rightsOf ds ∧
    colOf ds = 2 * (rightsOf ds : ℤ) - ds.length := by
  have hc := colOf_eq ds
  have hle : rightsOf ds ≤ ds.length := List.count_le_length true ds
  have hmin : binIndexB ds.length (rightsOf ds) = rightsOf ds := by
    unfold binIndexB
    omega
  refine ⟨?_, hmin, hc⟩
  unfold tallyIdxA
  have harg : ((colOf ds : ℚ) + (ds.length : ℚ)) / 2 = ((rightsOf ds : ℤ) : ℚ) := by
    rw [hc]
    push_cast
    ring
  rw [harg, jsRound_intCast, hmin]
  unfold clampZ
  have h0 : (0 : ℤ) ≤ (rightsOf ds : ℤ) := Int.ofNat_nonneg _
  have h1 : (rightsOf ds : ℤ) ≤ (ds.length : ℤ) := by exact_mod_cast hle
  omega

/-- Helper: incrementing an in-bounds entry raises the sum by one. -/
theorem sum_set_incr (t : List Nat) : ∀ i : Nat, i < t.length →
    (t.set i (t.getD i 0 + 1)).sum = t.sum + 1 := by
  induction t with
  | nil => intro i h; simp at h
  | cons x xs ih =>
    intro i h
    cases i with
    | zero => simp; omega
    | succ j =>
      simp only [List.set_cons_succ, List.getD_cons_succ, List.sum_cons]
      rw [ih j (by simpa using h)]
      omega

/-- Helper: the collect loop of variant A tallies each done ball exactly once
at an in-bounds index, removes exactly the done balls, and keeps the tally
array length. -/
theorem collectA_spec (rows : Nat) (bs : List Ball) : ∀ t : List Nat,
    t.length = rows + 1 →
    ((collectA rows bs t).2.sum = t.sum + bs.countP (fun b => b.done) ∧
     (collectA rows bs t).1.length + bs.countP (fun b => b.done) = bs.length ∧
     (collectA rows bs t).2.length = t.length) := by
  induction bs with
  | nil => intro t ht; simp [collectA]
  | cons b tl ih =>
    intro t ht
    cases hb : b.done with
    | true =>
      have hidx : (tallyIdxA rows b.col).toNat < t.length := by
        have h1 := (tallyIdxA_bounds rows b.col).1
        have h2 := (tallyIdxA_bounds rows b.col).2
        omega
      have heq : collectA rows (b :: tl) t
          = collectA rows tl (t.set (tallyIdxA rows b.col).toNat
              (t.getD (tallyIdxA rows b.col).toNat 0 + 1)) := by
        simp [collectA, hb]
      obtain ⟨ih1, ih2, ih3⟩ := ih (t.set (tallyIdxA rows b.col).toNat
          (t.getD (tallyIdxA rows b.col).toNat 0 + 1)) (by rw [List.length_set]; exact ht)
      rw [heq]
      refine ⟨?_, ?_, ?_⟩
      · rw [ih1, sum_set_incr t _ hidx]
        simp [List.countP_cons, hb]
        omega
      · rw [List.countP_cons_of_pos _ _ (by simp [hb])]
        simp only [List.length_cons]
        omega
      · rw [ih3, List.length_set]
    | false =>
      have heq : collectA rows (b :: tl) t
          = (b :: (collectA rows tl t).1, (collectA rows tl t).2) := by
        simp [collectA, hb]
      obtain ⟨ih1, ih2, ih3⟩ := ih t ht
      rw [heq]
      refine ⟨?_, ?_, ?_⟩
      · rw [ih1, List.countP_cons_of_neg _ _ (by simp [hb])]
      · rw [List.countP_cons_of_neg _ _ (by simp [hb])]
        simp only [List.length_cons]
        omega
      · exact ih3

/-- Helper: the advance loop of variant A keeps the number of live balls. -/
theorem advanceAllA_len (cX now : ℚ) (bs : List Ball) : ∀ a : Nat,
    (advanceAllA cX now bs a).1.length = bs.length := by
  induction bs with
  | nil => intro a; rfl
  | cons b tl ih =>
    intro a
    simp only [advanceAllA, List.length_cons, ih]

/-- Helper: one variant A tick conserves tallied-plus-live and the tally
array length. -/
theorem tickA_conserve (s : SysA) (now : ℚ) (h : s.tallies.length = s.rows + 1) :
    (s.tick now).tallies.sum + (s.tick now).balls.length
      = s.tallies.sum + s.balls.length ∧
    (s.tick now).tallies.length = s.rows + 1 := by
  obtain ⟨h1, h2, h3⟩ :=
    collectA_spec s.rows (advanceAllA s.boardCenterX now s.balls s.rng).1 s.tallies h
  have hlen := advanceAllA_len s.boardCenterX now s.balls s.rng
  constructor
  · show (collectA s.rows (advanceAllA s.boardCenterX now s.balls s.rng).1 s.tallies).2.sum
        + (collectA s.rows (advanceAllA s.boardCenterX now s.balls s.rng).1 s.tallies).1.length
        = s.tallies.sum + s.balls.length
    omega
  · show (collectA s.rows (advanceAllA s.boardCenterX now s.balls s.rng).1 s.tallies).2.length
        = s.rows + 1
    omega

/-- Helper: run equations of variant A. -/
theorem runA_nil (s : SysA) : s.run [] = s := rfl

/-- Helper: a drop event prepends a launch. -/
theorem runA_drop (s : SysA) (t : ℚ) (es : List EvA) :
    s.run (EvA.drop t :: es) = (s.launchBall t).run es := rfl

/-- Helper: a tick event prepends a tick. -/
theorem runA_tick (s : SysA) (t : ℚ) (es : List EvA) :
    s.run (EvA.tick t :: es) = (s.tick t).run es := rfl

/-- Helper: over any run of variant A, tallied-plus-live grows exactly by the
number of drop events. -/
theorem runA_conserve (evs : List EvA) : ∀ s : SysA, s.tallies.length = s.rows + 1 →
    ((s.run evs).tallies.sum + (s.run evs).balls.length
       = s.tallies.sum + s.balls.length + dropCountA evs) := by
  induction evs with
  | nil =>
    intro s hs
    simp [runA_nil, dropCountA]
  | cons e tl ih =>
    intro s hs
    cases e with
    | drop t =>
      rw [runA_drop]
      have hl : (s.launchBall t).tallies = s.tallies := rfl
      have hr : (s.launchBall t).rows = s.rows := rfl
      have hb : (s.launchBall t).balls.length = s.balls.length + 1 := by
        show (s.balls ++ [_]).length = s.balls.length + 1
        simp
      have hdc : dropCountA (EvA.drop t :: tl) = dropCountA tl + 1 := by
        simp [dropCountA]
      have := ih (s.launchBall t) (by rw [hl, hr]; exact hs)
      rw [hl, hb] at this
      rw [hdc]
      omega
    | tick t =>
      rw [runA_tick]
      obtain ⟨hc1, hc2⟩ := tickA_conserve s t hs
      have hr : (s.tick t).rows = s.rows := rfl
      have hdc : dropCountA (EvA.tick t :: tl) = dropCountA tl := by
        simp [dropCountA]
      have := ih (s.tick t) (by rw [hr]; exact hc2)
      rw [hdc]
      omega

/-- Helper: filtering out the done balls removes exactly the done count. -/
theorem filter_not_done_len (l : List QBall) :
    (l.filter (fun b => !b.done)).length + l.countP (fun b => b.done) = l.length := by
  induction l with
  | nil => rfl
  | cons b tl ih =>
    cases hb : b.done <;>
      simp only [List.filter_cons, List.countP_cons, hb, List.length_cons] <;>
      simp <;> omega

/-- Helper: unfolding equation of the variant B advance loop. -/
theorem advanceAllB_cons (g : GeomB) (now dt : ℚ) (b : QBall) (tl : List QBall) (a : Nat) :
    advanceAllB g now dt (b :: tl) a
      = ((qstep g now dt a b).1 :: (advanceAllB g now dt tl (qstep g now dt a b).2.1).1,
         (advanceAllB g now dt tl (qstep g now dt a b).2.1).2.1,
         (qstep g now dt a b).2.2.toList
           ++ (advanceAllB g now dt tl (qstep g now dt a b).2.1).2.2) := rfl

/-- Helper: on live balls, variant B's advance loop keeps the list length,
emits exactly one index per ball that becomes done, and every emitted index
is at most the closure row count. -/
theorem advanceAllB_spec (g : GeomB) (now dt : ℚ) (bs : List QBall) : ∀ a : Nat,
    (∀ b ∈ bs, b.done = false) →
    ((advanceAllB g now dt bs a).1.length = bs.length ∧
     (advanceAllB g now dt bs a).2.2.length
       = (advanceAllB g now dt bs a).1.countP (fun b => b.done) ∧
     ∀ e ∈ (advanceAllB g now dt bs a).2.2, e ≤ g.rows) := by
  induction bs with
  | nil =>
    intro a h
    refine ⟨rfl, rfl, ?_⟩
    intro e he
    simp [advanceAllB] at he
  | cons b tl ih =>
    intro a h
    have hb : b.done = false := h b (List.mem_cons_self b tl)
    obtain ⟨hrows, hinv, hnone, hsome⟩ := qstep_spec g now dt a b hb
    obtain ⟨ih1, ih2, ih3⟩ := ih (qstep g now dt a b).2.1
      (fun x hx => h x (List.mem_cons_of_mem b hx))
    rw [advanceAllB_cons]
    refine ⟨by simp [ih1], ?_, ?_⟩
    · simp only [List.length_append, List.countP_cons]
      rcases ho : (qstep g now dt a b).2.2 with _ | e
      · have hd := hnone ho
        simp [ho, hd, ih2]
      · have hd := (hsome e ho).1
        simp [ho, hd, ih2]
        omega
    · intro e he
      simp only [List.mem_append] at he
      rcases he with he | he
      · rcases ho : (qstep g now dt a b).2.2 with _ | e2
        · rw [ho] at he; simp at he
        · rw [ho] at he
          simp only [Option.toList_some, List.mem_singleton] at he
          rw [he, (hsome e2 ho).2]
          exact Nat.min_le_right _ _
      · exact ih3 e he

/-- Helper: bumping tallies at in-bounds indices adds the emission count to
the sum and keeps the length. -/
theorem bumpTallies_spec (is : List Nat) : ∀ t : List Nat, (∀ i ∈ is, i < t.length) →
    (bumpTallies t is).sum = t.sum + is.length ∧ (bumpTallies t is).length = t.length := by
  induction is with
  | nil => intro t _; exact ⟨by simp [bumpTallies], rfl⟩
  | cons i itl ih =>
    intro t h
    have hi : i < t.length := h i (List.mem_cons_self i itl)
    have heq : bumpTallies t (i :: itl)
        = bumpTallies (t.set i (t.getD i 0 + 1)) itl := rfl
    obtain ⟨ih1, ih2⟩ := ih (t.set i (t.getD i 0 + 1))
      (by intro j hj; rw [List.length_set]; exact h j (List.mem_cons_of_mem i hj))
    rw [heq]
    refine ⟨?_, ?_⟩
    · rw [ih1, sum_set_incr t i hi]
      simp
      omega
    · rw [ih2, List.length_set]

/-- Helper: one variant B tick conserves tallied-plus-live, keeps the tally
length, leaves only live balls and does not change the geometry. -/
theorem tickB_conserve (s : SysB) (now : ℚ)
    (hball : ∀ b ∈ s.balls, b.done = false)
    (ht : s.tallies.length = s.g.rows + 1) :
    ((s.tick now).tallies.sum + (s.tick now).balls.length
       = s.tallies.sum + s.balls.length ∧
     (s.tick now).tallies.length = s.g.rows + 1 ∧
     (∀ b ∈ (s.tick now).balls, b.done = false) ∧
     (s.tick now).g = s.g) := by
  obtain ⟨h1, h2, h3⟩ := advanceAllB_spec s.g now
    (min (33/1000) ((now - s.last) / 1000)) s.balls s.rng hball
  obtain ⟨hb1, hb2⟩ := bumpTallies_spec
    (advanceAllB s.g now (min (33/1000) ((now - s.last) / 1000)) s.balls s.rng).2.2
    s.tallies (by intro i hi; have := h3 i hi; omega)
  have hf := filter_not_done_len
    (advanceAllB s.g now (min (33/1000) ((now - s.last) / 1000)) s.balls s.rng).1
  refine ⟨?_, ?_, ?_, rfl⟩
  · show (bumpTallies s.tallies _).sum + (List.filter _ _).length = _
    rw [hb1]
    omega
  · show (bumpTallies s.tallies _).length = _
    rw [hb2, ht]
  · intro b hbm
    have := List.mem_filter.mp hbm
    simpa using this.2

/-- Helper: run equations of variant B. -/
theorem runB_nil (s : SysB) : s.run [] = s := rfl

/-- Helper: a drop event prepends a launch. -/
theorem runB_drop (s : SysB) (es : List EvB) :
    s.run (EvB.drop :: es) = s.launchBall.run es := rfl

/-- Helper: a tick event prepends a tick. -/
theorem runB_tick (s : SysB) (t : ℚ) (es : List EvB) :
    s.run (EvB.tick t :: es) = (s.tick t).run es := rfl

/-- Helper: over any run of variant B, tallied-plus-live grows exactly by the
number of drop events. -/
theorem runB_conserve (evs : List EvB) : ∀ s : SysB,
    (∀ b ∈ s.balls, b.done = false) → s.tallies.length = s.g.rows + 1 →
    ((s.run evs).tallies.sum + (s.run evs).balls.length
       = s.tallies.sum + s.balls.length + dropCountB evs) := by
  induction evs with
  | nil =>
    intro s _ _
    simp [runB_nil, dropCountB]
  | cons e tl ih =>
    intro s hball ht
    cases e with
    | drop =>
      rw [runB_drop]
      have hl : s.launchBall.tallies = s.tallies := rfl
      have hg : s.launchBall.g = s.g := rfl
      have hb : s.launchBall.balls.length = s.balls.length + 1 := by
        show (s.balls ++ [_]).length = s.balls.length + 1
        simp
      have hmem : ∀ b ∈ s.launchBall.balls, b.done = false := by
        intro b hbm
        rcases List.mem_append.mp hbm with hm | hm
        · exact hball b hm
        · simp only [List.mem_singleton] at hm
          rw [hm]
          rfl
      have hdc : dropCountB (EvB.drop :: tl) = dropCountB tl + 1 := by
        simp [dropCountB]
      have := ih s.launchBall hmem (by rw [hl, hg]; exact ht)
      rw [hl, hb] at this
      rw [hdc]
      omega
    | tick t =>
      rw [runB_tick]
      obtain ⟨hc1, hc2, hc3, hc4⟩ := tickB_conserve s t hball ht
      have hdc : dropCountB (EvB.tick t :: tl) = dropCountB tl := by
        simp [dropCountB]
      have := ih (s.tick t) hc3 (by rw [hc4]; exact hc2)
      rw [hdc]
      omega

/-- C5: starting from a reset state (no live balls, all tallies zero), after
any sequence of drops and ticks the sum of the bin tallies equals the number
of completed balls (drops minus still-live balls), in both variants: each
completed ball is tallied exactly once and then removed. -/
theorem C5_tally_conservation (sA : SysA) (evsA : List EvA)
    (hA1 : sA.balls = []) (hA2 : sA.tallies = List.replicate (sA.rows + 1) 0)
    (rows : Nat) (bias : ℚ) (seed entropy : Nat) (last0 : ℚ) (evsB : List EvB) :
    ((sA.run evsA).tallies.sum + (sA.run evsA).balls.length = dropCountA evsA) ∧
    (((mkSysB rows bias seed entropy last0).run evsB).tallies.sum
       + ((mkSysB rows bias seed entropy last0).run evsB).balls.length
       = dropCountB evsB) := by
  constructor
  · have := runA_conserve evsA sA (by rw [hA2]; simp)
    rw [hA1, hA2] at this
    simpa using this
  · have := runB_conserve evsB (mkSysB rows bias seed entropy last0)
      (by intro b hb; simp [mkSysB] at hb) (by simp [mkSysB, geomB])
    simpa [mkSysB] using this

/-- Helper: a single `update` on a live ball that still has rows to cross
keeps it live, does not touch the row/target/timing fields, and moves each
coordinate by the eased fraction of the remaining distance. -/
theorem update_fields (b : Ball) (t : ℚ) (hd : b.done = false) (hr : b.row < b.rows) :
    (b.update t).done = false ∧ (b.update t).row = b.row ∧ (b.update t).rows = b.rows ∧
    (b.update t).t0 = b.t0 ∧ (b.update t).tx = b.tx ∧ (b.update t).ty = b.ty ∧
    (b.update t).stepMs = b.stepMs ∧
    (b.update t).x = b.x + (b.tx - b.x) * easeInOut (clamp ((t - b.t0) / b.stepMs) 0 1) ∧
    (b.update t).y = b.y + (b.ty - b.y) * easeInOut (clamp ((t - b.t0) / b.stepMs) 0 1) := by
  unfold Ball.update
  rw [if_neg (by simp [hd])]
  refine ⟨?_, rfl, rfl, rfl, rfl, rfl, rfl, rfl, rfl⟩
  have hnotle : ¬ (b.rows ≤ b.row) := Nat.not_le.mpr hr
  simp [hnotle]

/-- C6 (amended): in variant A each `update` moves the position toward the
target by the eased fraction of the *remaining* distance, so after updates at
times `t₁ … tₖ` the offset from the target is the initial offset times
`∏ (1 - ease(uᵢ))` (with `ease` and `u = clamp((t - t0)/stepMs, 0, 1)` exactly
as claimed); in particular a single update from the pre-transition point gives
`pre + (target - pre) * ease(u)`, but the position at progress `u` depends on
the whole tick history, not on `(pre, target, u)` alone. -/
theorem C6_tween_product (b : Ball) (ts : List ℚ) (hd : b.done = false)
    (hr : b.row < b.rows) :
    (b.updates ts).x = b.tx + (b.x - b.tx) *
        (ts.map (fun t => 1 - easeInOut (clamp ((t - b.t0) / b.stepMs) 0 1))).prod ∧
    (b.updates ts).y = b.ty + (b.y - b.ty) *
        (ts.map (fun t => 1 - easeInOut (clamp ((t - b.t0) / b.stepMs) 0 1))).prod := by
  induction ts generalizing b with
  | nil =>
    unfold Ball.updates
    simp only [List.foldl_nil, List.map_nil, List.prod_nil, mul_one]
    constructor <;> ring
  | cons t tl ih =>
    obtain ⟨f1, f2, f3, f4, f5, f6, f7, f8, f9⟩ := update_fields b t hd hr
    have hrec := ih (b.update t) f1 (by rw [f2, f3]; exact hr)
    have hu : Ball.updates b (t :: tl) = Ball.updates (b.update t) tl := rfl
    obtain ⟨hx, hy⟩ := hrec
    rw [hu, hx, hy]
    simp only [f4, f5, f6, f7, f8, f9, List.map_cons, List.prod_cons]
    constructor <;> ring

/-- C6 (witness): the remaining-distance product formula applied to a fresh
ball and the two concrete update times of the counterexample. -/
theorem C6_tween_product_witness :
    (c6ball.done = false ∧ c6ball.row < c6ball.rows) ∧
    ((c6ball.updates [35, 70]).x = c6ball.tx + (c6ball.x - c6ball.tx) *
        (([35, 70] : List ℚ).map
          (fun t => 1 - easeInOut (clamp ((t - c6ball.t0) / c6ball.stepMs) 0 1))).prod ∧
     (c6ball.updates [35, 70]).y = c6ball.ty + (c6ball.y - c6ball.ty) *
        (([35, 70] : List ℚ).map
          (fun t => 1 - easeInOut (clamp ((t - c6ball.t0) / c6ball.stepMs) 0 1))).prod) :=
  ⟨⟨rfl, by decide⟩, C6_tween_product c6ball [35, 70] rfl (by decide)⟩

/-- Helper: peeling the last iteration of a forced-rng plan sequence. -/
theorem planConstA_snoc (cX now r : ℚ) (k : Nat) : ∀ b : Ball,
    planConstA cX now r b (k+1) = (planConstA cX now r b k).planNextTarget r cX now := by
  induction k with
  | zero => intro b; rfl
  | succ j ihj => intro b; exact ihj (b.planNextTarget r cX now)

/-- C8: with `rowCount = 5` and any bias in the interface domain
`[-0.25, 0.25]`, forcing the generator to always return 0 makes every
decision a right deflection: after the five rows `col = 5` and the reported
bin index is 5, and the sixth plan marks the ball done; forcing the generator
to always return 1 makes every decision a left deflection, ending with
`col = -5` and bin index 0. -/
theorem C8_forced_scenarios (bias : ℚ) (h1 : -(1/4) ≤ bias) (h2 : bias ≤ 1/4) :
    ((planConstA 260 0 0 (c8ball bias) 5).col = 5 ∧
     tallyIdxA 5 (planConstA 260 0 0 (c8ball bias) 5).col = 5 ∧
     (planConstA 260 0 0 (c8ball bias) 6).done = true) ∧
    ((planConstA 260 0 1 (c8ball bias) 5).col = -5 ∧
     tallyIdxA 5 (planConstA 260 0 1 (c8ball bias) 5).col = 0 ∧
     (planConstA 260 0 1 (c8ball bias) 6).done = true) := by
  have hp : pRight bias = 1/2 + bias := by
    unfold pRight clamp
    rw [min_eq_right (by linarith), max_eq_right (by linarith)]
  have h0 : (0:ℚ) < pRight bias := by rw [hp]; linarith
  have hn : ¬ ((1:ℚ) < pRight bias) := by rw [hp]; linarith
  have stepR : ∀ b : Ball, b.bias = bias → b.rows = 5 → b.row < 5 →
      ((b.planNextTarget 0 260 0).col = b.col + 1 ∧
       (b.planNextTarget 0 260 0).row = b.row + 1 ∧
       (b.planNextTarget 0 260 0).bias = bias ∧
       (b.planNextTarget 0 260 0).rows = 5) := by
    intro b hb hr5 hrow
    unfold Ball.planNextTarget
    rw [if_neg (by omega)]
    refine ⟨?_, rfl, hb, hr5⟩
    show b.col + (if (0:ℚ) < pRight b.bias then (1:ℤ) else -1) = b.col + 1
    rw [hb, if_pos h0]
  have stepL : ∀ b : Ball, b.bias = bias → b.rows = 5 → b.row < 5 →
      ((b.planNextTarget 1 260 0).col = b.col - 1 ∧
       (b.planNextTarget 1 260 0).row = b.row + 1 ∧
       (b.planNextTarget 1 260 0).bias = bias ∧
       (b.planNextTarget 1 260 0).rows = 5) := by
    intro b hb hr5 hrow
    unfold Ball.planNextTarget
    rw [if_neg (by omega)]
    refine ⟨?_, rfl, hb, hr5⟩
    show b.col + (if (1:ℚ) < pRight b.bias then (1:ℤ) else -1) = b.col - 1
    rw [hb, if_neg hn]
    ring
  have iterR : ∀ k : Nat, ∀ b : Ball, b.bias = bias → b.rows = 5 → b.row + k ≤ 5 →
      ((planConstA 260 0 0 b k).col = b.col + k ∧
       (planConstA 260 0 0 b k).row = b.row + k ∧
       (planConstA 260 0 0 b k).bias = bias ∧
       (planConstA 260 0 0 b k).rows = 5) := by
    intro k
    induction k with
    | zero => intro b hb hr5 _; exact ⟨by simp [planConstA], by simp [planConstA], hb, hr5⟩
    | succ j ihj =>
      intro b hb hr5 hk
      obtain ⟨s1, s2, s3, s4⟩ := stepR b hb hr5 (by omega)
      have heq : planConstA 260 0 0 b (j+1)
          = planConstA 260 0 0 (b.planNextTarget 0 260 0) j := rfl
      obtain ⟨i1, i2, i3, i4⟩ := ihj (b.planNextTarget 0 260 0) s3 s4 (by omega)
      rw [heq]
      refine ⟨by rw [i1, s1]; push_cast; ring, by rw [i2, s2]; omega, i3, i4⟩
  have iterL : ∀ k : Nat, ∀ b : Ball, b.bias = bias → b.rows = 5 → b.row + k ≤ 5 →
      ((planConstA 260 0 1 b k).col = b.col - k ∧
       (planConstA 260 0 1 b k).row = b.row + k ∧
       (planConstA 260 0 1 b k).bias = bias ∧
       (planConstA 260 0 1 b k).rows = 5) := by
    intro k
    induction k with
    | zero => intro b hb hr5 _; exact ⟨by simp [planConstA], by simp [planConstA], hb, hr5⟩
    | succ j ihj =>
      intro b hb hr5 hk
      obtain ⟨s1, s2, s3, s4⟩ := stepL b hb hr5 (by omega)
      have heq : planConstA 260 0 1 b (j+1)
          = planConstA 260 0 1 (b.planNextTarget 1 260 0) j := rfl
      obtain ⟨i1, i2, i3, i4⟩ := ihj (b.planNextTarget 1 260 0) s3 s4 (by omega)
      rw [heq]
      refine ⟨by rw [i1, s1]; push_cast; ring, by rw [i2, s2]; omega, i3, i4⟩
  obtain ⟨r1, r2, r3, r4⟩ := iterR 5 (c8ball bias) rfl rfl (by simp [c8ball, Ball.mkNew])
  obtain ⟨l1, l2, l3, l4⟩ := iterL 5 (c8ball bias) rfl rfl (by simp [c8ball, Ball.mkNew])
  have hcolR : (planConstA 260 0 0 (c8ball bias) 5).col = 5 := by
    rw [r1]; rfl
  have hcolL : (planConstA 260 0 1 (c8ball bias) 5).col = -5 := by
    rw [l1]; rfl
  have htaR : tallyIdxA 5 5 = 5 := by
    have harg : (((5:ℤ) : ℚ) + ((5:Nat) : ℚ)) / 2 = ((5:ℤ) : ℚ) := by norm_num
    unfold tallyIdxA
    rw [harg, jsRound_intCast]
    unfold clampZ
    decide
  have htaL : tallyIdxA 5 (-5) = 0 := by
    have harg : ((((-5):ℤ) : ℚ) + ((5:Nat) : ℚ)) / 2 = ((0:ℤ) : ℚ) := by norm_num
    unfold tallyIdxA
    rw [harg, jsRound_intCast]
    unfold clampZ
    decide
  have hdoneR : (planConstA 260 0 0 (c8ball bias) 6).done = true := by
    rw [show (6:Nat) = 5+1 from rfl, planConstA_snoc]
    have hcond : (planConstA 260 0 0 (c8ball bias) 5).rows
        ≤ (planConstA 260 0 0 (c8ball bias) 5).row := by
      rw [r2, r4]
      omega
    unfold Ball.planNextTarget
    rw [if_pos hcond]
  have hdoneL : (planConstA 260 0 1 (c8ball bias) 6).done = true := by
    rw [show (6:Nat) = 5+1 from rfl, planConstA_snoc]
    have hcond : (planConstA 260 0 1 (c8ball bias) 5).rows
        ≤ (planConstA 260 0 1 (c8ball bias) 5).row := by
      rw [l2, l4]
      omega
    unfold Ball.planNextTarget
    rw [if_pos hcond]
  exact ⟨⟨hcolR, by rw [hcolR]; exact htaR, hdoneR⟩,
         ⟨hcolL, by rw [hcolL]; exact htaL, hdoneL⟩⟩

/-- C8 (witness): the forced-generator scenarios at bias 0. -/
theorem C8_forced_scenarios_witness :
    (-(1/4) ≤ (0:ℚ) ∧ (0:ℚ) ≤ 1/4) ∧
    (((planConstA 260 0 0 (c8ball 0) 5).col = 5 ∧
      tallyIdxA 5 (planConstA 260 0 0 (c8ball 0) 5).col = 5 ∧
      (planConstA 260 0 0 (c8ball 0) 6).done = true) ∧
     ((planConstA 260 0 1 (c8ball 0) 5).col = -5 ∧
      tallyIdxA 5 (planConstA 260 0 1 (c8ball 0) 5).col = 0 ∧
      (planConstA 260 0 1 (c8ball 0) 6).done = true)) :=
  ⟨⟨by norm_num, by norm_num⟩, C8_forced_scenarios 0 (by norm_num) (by norm_num)⟩

/-- C5 (witness): conservation applied to a concrete reset state of variant A
and a concrete seeded state of variant B. -/
theorem C5_tally_conservation_witness :
    (c5sysA.balls = [] ∧ c5sysA.tallies = List.replicate (c5sysA.rows + 1) 0) ∧
    ((c5sysA.run [EvA.drop 0, EvA.tick 200]).tallies.sum
       + (c5sysA.run [EvA.drop 0, EvA.tick 200]).balls.length
       = dropCountA [EvA.drop 0, EvA.tick 200]) ∧
    (((mkSysB 5 0 12345 0 0).run [EvB.drop, EvB.tick 33]).tallies.sum
       + ((mkSysB 5 0 12345 0 0).run [EvB.drop, EvB.tick 33]).balls.length
       = dropCountB [EvB.drop, EvB.tick 33]) :=
  ⟨⟨rfl, rfl⟩,
   (C5_tally_conservation c5sysA [EvA.drop 0, EvA.tick 200] rfl rfl
      5 0 12345 0 0 [EvB.drop, EvB.tick 33]).1,
   (C5_tally_conservation c5sysA [EvA.drop 0, EvA.tick 200] rfl rfl
      5 0 12345 0 0 [EvB.drop, EvB.tick 33]).2⟩

end Galton
